import Mathlib

/-!
Verification development for a source-tree import-specifier rewriter
(repository: convert-nuxt-aliases-to-relative-paths, src/index.js).

The program rewrites alias-form import specifiers (such as a token `@`
standing for the source directory) into relative paths, and optionally
rewrites root-absolute specifiers whose first segment is a known project
directory.  Its path arithmetic is the Node.js posix `path` module
(`join`, `relative`, `dirname`, `resolve`); its specifier detection is a
regex scan over raw file text.  We embed both faithfully: paths are
modelled on `List Char` exactly following the Node posix implementations,
and each regex pass is modelled as a left-to-right scanner with the same
match/advance behaviour as a JavaScript global `replace` (failed match
attempts advance one character, successful matches resume after the match,
the lookbehind inspects the character of the original text preceding the
match).
-/

/-- Split a character list on the separator `/`, like the JavaScript
`String.prototype.split("/")`: the empty list yields one empty segment. -/
def splitSlash : List Char → List (List Char)
  | [] => [[]]
  | c :: rest =>
    if c = '/' then [] :: splitSlash rest
    else
      match splitSlash rest with
      | [] => [[c]]
      | s :: ss => (c :: s) :: ss

/-- Join segments with the separator `/` (inverse of `splitSlash` on
slash-free segments). -/
def joinSlash : List (List Char) → List Char
  | [] => []
  | s :: rest => if rest = [] then s else s ++ '/' :: joinSlash rest

/-- Core of the Node posix `normalizeString`: process the segments of a
path, dropping empty and `.` segments and resolving `..` segments (a `..`
pops the previously accepted segment; at the top it is kept only when
`allowAbove` is true, i.e. for relative paths).  `acc` holds the accepted
segments in reverse order. -/
def normCore (allowAbove : Bool) : List (List Char) → List (List Char) → List (List Char)
  | acc, [] => acc.reverse
  | acc, s :: rest =>
    if s = [] ∨ s = ['.'] then normCore allowAbove acc rest
    else if s = ['.', '.'] then
      match acc with
      | [] =>
        if allowAbove then normCore allowAbove [['.', '.']] rest
        else normCore allowAbove [] rest
      | a :: acc' =>
        if a = ['.', '.'] then
          (if allowAbove then normCore allowAbove (s :: a :: acc') rest
           else normCore allowAbove (a :: acc') rest)
        else normCore allowAbove acc' rest
    else normCore allowAbove (s :: acc) rest

/-- Node posix `path.normalize` on character lists: empty input becomes
`.`; absoluteness and a trailing separator are preserved; the segment core
is resolved by `normCore`. -/
def pnormalizeCh (p : List Char) : List Char :=
  match p with
  | [] => ['.']
  | c :: _ =>
    let isAbs : Bool := c = '/'
    let trail : Bool := p.getLast? = some '/'
    let core := joinSlash (normCore (!isAbs) [] (splitSlash p))
    if core = [] then
      (if isAbs then ['/'] else if trail then ['.', '/'] else ['.'])
    else
      let core2 := if trail then core ++ ['/'] else core
      if isAbs then '/' :: core2 else core2

/-- Node posix `path.join` restricted to two arguments (the only arity the
program uses): concatenate the non-empty arguments with `/` and
normalize; two empty arguments give `.`. -/
def pjoinCh (a b : List Char) : List Char :=
  match a, b with
  | [], [] => ['.']
  | [], b => pnormalizeCh b
  | a, [] => pnormalizeCh a
  | a, b => pnormalizeCh (a ++ '/' :: b)

/-- Segment form of Node posix `path.resolve cwd p` for an absolute
working directory `cwd`: if `p` is absolute it is normalized on its own,
otherwise it is resolved against `cwd`; the result is the canonical
segment list of an absolute path (no empty, `.` or `..` segments). -/
def presolveSegsCh (cwd p : List Char) : List (List Char) :=
  normCore false [] (splitSlash (if p.head? = some '/' then p else cwd ++ '/' :: p))

/-- Node posix `path.resolve cwd p` (absolute `cwd`): the canonical
absolute path string of `presolveSegsCh`. -/
def presolveCh (cwd p : List Char) : List Char :=
  '/' :: joinSlash (presolveSegsCh cwd p)

/-- Length of the common prefix of two segment lists. -/
def commonPrefixLen : List (List Char) → List (List Char) → Nat
  | a :: as, b :: bs => if a = b then commonPrefixLen as bs + 1 else 0
  | _, _ => 0

/-- Node posix `path.relative cwd from to` (absolute `cwd`): both ends are
resolved; the result climbs with `..` segments out of the uncommon part of
`from` and then descends into the uncommon part of `to`. -/
def prelativeCh (cwd f t : List Char) : List Char :=
  if f = t then [] else
  let fs := presolveSegsCh cwd f
  let ts := presolveSegsCh cwd t
  if fs = ts then [] else
  let k := commonPrefixLen fs ts
  joinSlash (List.replicate (fs.length - k) ['.', '.'] ++ ts.drop k)

/-- Node posix `path.dirname`: strip trailing separators, then cut before
the last separator (the separator at index 0 is never a cut point); a
rootless path with no separator gives `.`, a rooted one gives `/`. -/
def pdirnameCh (p : List Char) : List Char :=
  let hasRoot : Bool := p.head? = some '/'
  let r2 := (p.reverse.dropWhile (fun c => c = '/')).dropWhile (fun c => c ≠ '/')
  if r2.length ≤ 1 then (if hasRoot then ['/'] else ['.'])
  else if hasRoot ∧ r2.length = 2 then ['/', '/']
  else p.take (r2.length - 1)

/-- String wrapper for `pjoinCh` (the `path.join` calls of the program). -/
def pjoin (a b : String) : String := ⟨pjoinCh a.data b.data⟩

/-- String wrapper for `pdirnameCh` (the `path.dirname` calls). -/
def pdirname (p : String) : String := ⟨pdirnameCh p.data⟩

/-- String wrapper for `prelativeCh` (the `path.relative` calls); `cwd` is
the process working directory, which is absolute. -/
def prelative (cwd f t : String) : String := ⟨prelativeCh cwd.data f.data t.data⟩

/-- String wrapper for `presolveCh` (the `path.resolve` calls). -/
def presolve (cwd p : String) : String := ⟨presolveCh cwd.data p.data⟩

/-- A string-literal terminator of the specifier regexes: a single or
double quotation mark (the character class of the patterns in
src/index.js lines 105 and 130).  The single-quote character is code 39. -/
def isQuoteChar (c : Char) : Bool := c = Char.ofNat 39 || c = '"'

/-- Characters matched by an unflagged JavaScript regex `.`: everything
except the line terminators LF, CR, LS (8232) and PS (8233). -/
def isRegexDotChar (c : Char) : Bool :=
  !(c = '\n' || c = '\r' || c = Char.ofNat 8232 || c = Char.ofNat 8233)

/-- The lazy capture (a lazy dot-star followed by a quote class) of both
specifier regexes, started
right after the slash: consume characters matched by `.` up to the first
quote; return the captured subpath, the terminating quote and the rest of
the text.  Fails when a line terminator or the end of the text comes
before a quote, exactly as the regex match attempt fails. -/
def scanSubpath : List Char → Option (List Char × Char × List Char)
  | [] => none
  | c :: rest =>
    if isQuoteChar c then some ([], c, rest)
    else if isRegexDotChar c then
      match scanSubpath rest with
      | some (sub, q, r) => some (c :: sub, q, r)
      | none => none
    else none

/-- Attempt of the alias regex (negative slash lookbehind, the literal
token, a slash, then the lazy capture up to a quote) at the head of
`cs`, ignoring the lookbehind (which the scanner checks separately): the
token followed by `/` must be a literal prefix, then the lazy capture must
complete.  The `RegExp`-metacharacter escaping at src/index.js line 105
makes the token match literally, which is how it is treated here. -/
def matchAlias (tok : List Char) (cs : List Char) : Option (List Char × Char × List Char) :=
  if (tok ++ ['/']).isPrefixOf cs then scanSubpath (cs.drop (tok.length + 1)) else none

/-- One global-replace pass of the alias regex over the text, as a
left-to-right scanner.  `prev` is the character of the original text
preceding the current position (the negative lookbehind `(?<!/)` blocks a
match when it is `/`); `repl` builds the replacement from the captured
subpath and quote.  A failed attempt advances one character; a successful
match emits the replacement and resumes after the terminating quote.
`fuel` bounds the recursion; the callers pass the text length, which
always suffices because every step consumes at least one character. -/
def aliasGoF (tok : List Char) (repl : List Char → Char → List Char) :
    Nat → Option Char → List Char → List Char
  | 0, _, cs => cs
  | _ + 1, _, [] => []
  | f + 1, prev, c :: rest =>
    if prev = some '/' then c :: aliasGoF tok repl f (some c) rest
    else
      match matchAlias tok (c :: rest) with
      | some (sub, q, r) => repl sub q ++ aliasGoF tok repl f (some q) r
      | none => c :: aliasGoF tok repl f (some c) rest

/-- Run an alias pass over a whole text (fuel := length, initial
lookbehind empty). -/
def aliasRun (tok : List Char) (repl : List Char → Char → List Char) (cs : List Char) : List Char :=
  aliasGoF tok repl cs.length none cs

/-- Resume an alias pass after a match whose terminating quote was `q`. -/
def aliasResume (tok : List Char) (repl : List Char → Char → List Char) (q : Char)
    (post : List Char) : List Char :=
  aliasGoF tok repl post.length (some q) post

/-- Replacement of the alias regex (src/index.js lines 106-112): the
matched `TOK/subpath<quote>` becomes
`relative(dirname(filePath), join(targetPath, subpath))` followed by the
same terminating quote. -/
def aliasRepl (cwd targetPath filePath : String) (sub : List Char) (q : Char) : List Char :=
  (prelative cwd (pdirname filePath) (pjoin targetPath ⟨sub⟩)).data ++ [q]

/-- One alias substitution pass on a file content (one step of the
`Object.entries(aliases).reduce` at src/index.js lines 102-115). -/
def aliasPass (cwd filePath tok targetPath content : String) : String :=
  ⟨aliasRun tok.data (aliasRepl cwd targetPath filePath) content.data⟩

/-- The whole alias stage: fold the alias passes over the content in the
order of the alias table (the `reduce` at src/index.js lines 102-115). -/
def applyAliases (cwd filePath : String) (aliases : List (String × String))
    (content : String) : String :=
  aliases.foldl (fun acc a => aliasPass cwd filePath a.1 a.2 acc) content

/-- Replacement of the absolute-path regex (src/index.js lines 132-141)
for an eligible specifier: the whole match (opening quote, slash, subpath,
closing quote) becomes the closing quote, then
`relative(dirname(filePath), join(rootDir, subpath))`, then the closing
quote again. -/
def absRepl (cwd rootDir filePath : String) (sub : List Char) (q : Char) : List Char :=
  q :: (prelative cwd (pdirname filePath) (pjoin rootDir ⟨sub⟩)).data ++ [q]

/-- The first slash-separated segment of the captured subpath, i.e. the
JavaScript `absolutePath.split("/")[0]` of src/index.js line 134. -/
def firstSegment (sub : List Char) : String :=
  ⟨sub.takeWhile (fun c => c ≠ '/')⟩

/-- One global-replace pass of the absolute-path regex (a quote, a slash,
the lazy capture, a quote): when the first segment of the captured
subpath is a known directory the match is replaced by `repl`, otherwise
the match is kept verbatim; either way scanning resumes after the match.
A failed attempt advances one character.  `fuel` bounds the recursion and
the text length always suffices. -/
def absGoF (known : List String) (repl : List Char → Char → List Char) :
    Nat → List Char → List Char
  | 0, cs => cs
  | _ + 1, [] => []
  | f + 1, c :: rest =>
    if isQuoteChar c then
      match rest with
      | '/' :: rest2 =>
        match scanSubpath rest2 with
        | some (sub, q, r) =>
          (if known.contains (firstSegment sub) then repl sub q
           else c :: '/' :: sub ++ [q]) ++ absGoF known repl f r
        | none => c :: absGoF known repl f rest
      | _ => c :: absGoF known repl f rest
    else c :: absGoF known repl f rest

/-- Run an absolute-path pass over a whole text. -/
def absRun (known : List String) (repl : List Char → Char → List Char) (cs : List Char) : List Char :=
  absGoF known repl cs.length cs

/-- Resume an absolute-path pass after a match. -/
def absResume (known : List String) (repl : List Char → Char → List Char) (post : List Char) : List Char :=
  absGoF known repl post.length post

/-- The root used by the absolute-path stage for a file (src/index.js
lines 124-127): the resolved `src` directory when the file path starts
with it (a plain string-prefix test, `String.prototype.startsWith`), the
project root otherwise. -/
def effectiveRoot (cwd srcDir filePath : String) : String :=
  if srcDir.data.isPrefixOf filePath.data then srcDir else cwd

/-- The absolute-path stage on one file content (src/index.js lines
118-143): root-absolute string-literal specifiers whose first segment is
a known directory are rewritten relative to the effective root. -/
def absolutePass (cwd filePath : String) (known : List String) (content : String) : String :=
  let srcDir := presolve cwd "src"
  let rootDir := effectiveRoot cwd srcDir filePath
  ⟨absRun known (absRepl cwd rootDir filePath) content.data⟩

/-- The whole per-file text transformation: the alias stage
unconditionally, then the absolute-path stage when the mode flag is set
(src/index.js lines 99-143). -/
def transformFile (cwd : String) (absMode : Bool) (known : List String)
    (aliases : List (String × String)) (filePath content : String) : String :=
  let updated := applyAliases cwd filePath aliases content
  if absMode then absolutePass cwd filePath known updated else updated

/-- The six default aliases of src/index.js lines 26-33, in their literal
object order. -/
def defaultAliases (rootDir srcDir : String) : List (String × String) :=
  [("~", srcDir), ("@", srcDir), ("~~", rootDir), ("@@", rootDir),
   ("assets", pjoin srcDir "assets"), ("public", pjoin srcDir "public")]

/-- JavaScript object-spread merge of two key-ordered association lists
(keys of each list assumed unique, as they come from objects): keys of `a`
keep their position, with the value of `b` when `b` also binds the key;
keys only in `b` are appended in their order. -/
def spreadMerge (a b : List (String × String)) : List (String × String) :=
  a.map (fun d => (d.1, (List.lookup d.1 b).getD d.2)) ++
    b.filter (fun u => (List.lookup u.1 a).isNone)

/-- The resolved alias table of `getAliasesWithPaths` (src/index.js lines
26-37): the defaults overlaid by the user aliases via object spread. -/
def getAliasesWithPaths (rootDir srcDir : String) (userAliases : List (String × String)) :
    List (String × String) :=
  spreadMerge (defaultAliases rootDir srcDir) userAliases

/-- The extension filter of src/index.js lines 93-98: a file is processed
only when its path ends in one of the four accepted extensions. -/
def acceptedExt (p : String) : Bool :=
  ".ts".data.isSuffixOf p.data || ".vue".data.isSuffixOf p.data ||
    ".scss".data.isSuffixOf p.data || ".js".data.isSuffixOf p.data

/-- A directory tree as the walker sees it: `readdirSync` entries that are
either files with text content or subdirectories. -/
inductive FsEntry where
  | file (name : String) (content : String)
  | dir (name : String) (entries : List FsEntry)

/-- Observable collaborator invocations of one run: a configuration load
(`getAliasesWithPaths`, src/index.js line 83), a file read (line 99) and a
file write (lines 146 and 152). -/
inductive FileEvent where
  | load
  | read (path : String)
  | write (path : String) (content : String)
deriving DecidableEq

/-- The recursive walker `replaceAliases` (src/index.js lines 82-158) as
an event trace.  Each invocation first loads the configuration (line 83),
then for each entry either recurses into a subdirectory (line 92) or, for
a file with an accepted extension, reads it and writes the transformed
content back when it differs from the original.  `fuel` bounds the
recursion depth; every tree of depth at most `fuel` is traversed in
full. -/
def replaceAliasesF (cwd : String) (absMode : Bool) (known : List String)
    (aliases : List (String × String)) : Nat → String → List FsEntry → List FileEvent
  | 0, _, _ => [FileEvent.load]
  | f + 1, d, entries =>
    FileEvent.load ::
      entries.flatMap (fun e =>
        match e with
        | FsEntry.file n c =>
          let p := pjoin d n
          if acceptedExt p then
            let t := transformFile cwd absMode known aliases p c
            FileEvent.read p :: (if t = c then [] else [FileEvent.write p t])
          else []
        | FsEntry.dir n es => replaceAliasesF cwd absMode known aliases f (pjoin d n) es)

/-- The top of the script (src/index.js lines 13-16, 38-41 and 160-164) as
an exit code and the event trace of the run: a missing configuration file
or a failing configuration load exits with code 1 before any file event;
otherwise the walker runs from `resolve(cwd, "src")` and the implicit exit
code is 0. -/
def mainRun (cwd : String) (configExists : Bool)
    (loadResult : Option (List (String × String))) (absMode : Bool) (known : List String)
    (fuel : Nat) (tree : List FsEntry) : Nat × List FileEvent :=
  if configExists = false then (1, [])
  else
    match loadResult with
    | none => (1, [])
    | some aliases => (0, replaceAliasesF cwd absMode known aliases fuel (presolve cwd "src") tree)

/-- Recognizer for configuration-load events. -/
def isLoadEvent : FileEvent → Bool
  | FileEvent.load => true
  | _ => false

/-- Number of subdirectories the walker recurses into within the given
fuel (each is one visited directory besides the start directory). -/
def subdirCountF : Nat → List FsEntry → Nat
  | 0, _ => 0
  | f + 1, entries =>
    (entries.map (fun e =>
      match e with
      | FsEntry.file _ _ => 0
      | FsEntry.dir _ es => 1 + subdirCountF f es)).sum

/-- Well-formedness of the names in a tree, to the depth given by `fuel`:
`readdirSync` entry names are non-empty, are not the special entries `.`
or `..`, and contain no separator. -/
def noSlash (s : List Char) : Bool := !s.any (fun c => c = '/')

def plainSegCh (s : List Char) : Bool :=
  s ≠ [] && s ≠ ['.'] && s ≠ ['.', '.'] && noSlash s

def plainName (n : String) : Bool := plainSegCh n.data

def plainTreeF : Nat → List FsEntry → Bool
  | 0, _ => true
  | f + 1, entries =>
    entries.all (fun e =>
      match e with
      | FsEntry.file n _ => plainName n
      | FsEntry.dir n es => plainName n && plainTreeF f es)

/-- Canonical absolute path made of the given segments. -/
def canonPathCh (segs : List (List Char)) : List Char := '/' :: joinSlash segs

theorem scanSubpath_complete (sub : List Char) (q : Char) (post : List Char)
    (hsub : ∀ c ∈ sub, isRegexDotChar c = true ∧ isQuoteChar c = false)
    (hq : isQuoteChar q = true) :
    scanSubpath (sub ++ q :: post) = some (sub, q, post) := by
  induction sub with
  | nil => simp [scanSubpath, hq]
  | cons c cs ih =>
    have hc := hsub c (by simp)
    have ih' := ih (fun x hx => hsub x (by simp [hx]))
    simp [scanSubpath, hc.1, hc.2, ih']

theorem scanSubpath_shape : ∀ (l sub : List Char) (q : Char) (r : List Char),
    scanSubpath l = some (sub, q, r) → l = sub ++ q :: r := by
  intro l
  induction l with
  | nil => intro sub q r h; simp [scanSubpath] at h
  | cons c rest ih =>
    intro sub q r h
    simp only [scanSubpath] at h
    by_cases hq : isQuoteChar c = true
    · simp [hq] at h
      obtain ⟨h1, h2, h3⟩ := h
      subst h1; subst h2; subst h3; rfl
    · simp [hq] at h
      by_cases hd : isRegexDotChar c = true
      · simp [hd] at h
        cases hm : scanSubpath rest with
        | none => rw [hm] at h; simp at h
        | some x =>
          obtain ⟨sub', q', r'⟩ := x
          rw [hm] at h
          simp at h
          obtain ⟨h1, h2, h3⟩ := h
          subst sub; subst q; subst r
          simp [ih sub' q' r' hm]
      · simp [hd] at h

theorem scanSubpath_length {l sub : List Char} {q : Char} {r : List Char}
    (h : scanSubpath l = some (sub, q, r)) : r.length + 1 ≤ l.length := by
  have hs := scanSubpath_shape l sub q r h
  subst hs
  simp

theorem matchAlias_shape {tok cs sub : List Char} {q : Char} {r : List Char}
    (h : matchAlias tok cs = some (sub, q, r)) :
    cs = tok ++ '/' :: (sub ++ q :: r) := by
  unfold matchAlias at h
  by_cases hp : (tok ++ ['/']).isPrefixOf cs
  · rw [if_pos hp] at h
    obtain ⟨t, ht⟩ := List.isPrefixOf_iff_prefix.mp hp
    have hdrop : cs.drop (tok.length + 1) = t := by
      rw [← ht]
      simp
    rw [hdrop] at h
    have := scanSubpath_shape t sub q r h
    rw [← ht, this]
    simp
  · rw [if_neg hp] at h
    simp at h

theorem matchAlias_length {tok cs sub : List Char} {q : Char} {r : List Char}
    (h : matchAlias tok cs = some (sub, q, r)) : r.length + 2 ≤ cs.length := by
  have hs := matchAlias_shape h
  subst hs
  simp
  omega

theorem aliasGoF_mono (tok : List Char) (repl : List Char → Char → List Char) :
    ∀ (f1 f2 : Nat) (prev : Option Char) (cs : List Char), cs.length ≤ f1 → cs.length ≤ f2 →
      aliasGoF tok repl f1 prev cs = aliasGoF tok repl f2 prev cs := by
  intro f1
  induction f1 with
  | zero =>
    intro f2 prev cs h1 h2
    have hnil : cs = [] := List.eq_nil_of_length_eq_zero (Nat.le_zero.mp h1)
    subst hnil
    cases f2 <;> simp [aliasGoF]
  | succ f ih =>
    intro f2 prev cs h1 h2
    cases cs with
    | nil => cases f2 <;> simp [aliasGoF]
    | cons c rest =>
      cases f2 with
      | zero => simp at h2
      | succ f2' =>
        have hrest : rest.length ≤ f := by simpa using h1
        have hrest2 : rest.length ≤ f2' := by simpa using h2
        simp only [aliasGoF]
        by_cases hp : prev = some '/'
        · simp [hp, ih f2' (some c) rest hrest hrest2]
        · simp only [if_neg hp]
          cases hm : matchAlias tok (c :: rest) with
          | none => simp [ih f2' (some c) rest hrest hrest2]
          | some x =>
            obtain ⟨sub, q, r⟩ := x
            have hlen := matchAlias_length hm
            simp at hlen
            exact congrArg (fun l => repl sub q ++ l)
              (ih f2' (some q) r (by omega) (by omega))

theorem absGoF_nil (known : List String) (repl : List Char → Char → List Char) (f : Nat) :
    absGoF known repl f [] = [] := by
  cases f <;> simp [absGoF]

theorem absGoF_cons_noquote (known : List String) (repl : List Char → Char → List Char)
    (f : Nat) (c : Char) (rest : List Char) (hq : isQuoteChar c = false) :
    absGoF known repl (f + 1) (c :: rest) = c :: absGoF known repl f rest := by
  simp [absGoF, hq]

theorem absGoF_cons_last (known : List String) (repl : List Char → Char → List Char)
    (f : Nat) (c : Char) :
    absGoF known repl (f + 1) [c] = c :: absGoF known repl f [] := by
  by_cases hq : isQuoteChar c = true
  · simp [absGoF, hq]
  · simp [absGoF, hq]

theorem absGoF_quote_default (known : List String) (repl : List Char → Char → List Char)
    (f : Nat) (c c2 : Char) (rest2 : List Char) (hs : c2 ≠ '/') :
    absGoF known repl (f + 1) (c :: c2 :: rest2) = c :: absGoF known repl f (c2 :: rest2) := by
  by_cases hq : isQuoteChar c = true
  · simp only [absGoF]
    rw [if_pos hq]
    split
    next r2 heq =>
      simp only [List.cons.injEq] at heq
      exact absurd heq.1 hs
    next =>
      rfl
  · simp [absGoF, hq]

theorem absGoF_quote_slash (known : List String) (repl : List Char → Char → List Char)
    (f : Nat) (c : Char) (rest2 : List Char) (hq : isQuoteChar c = true) :
    absGoF known repl (f + 1) (c :: '/' :: rest2) =
      (match scanSubpath rest2 with
       | some (sub, q, r) =>
         (if known.contains (firstSegment sub) then repl sub q
          else c :: '/' :: sub ++ [q]) ++ absGoF known repl f r
       | none => c :: absGoF known repl f ('/' :: rest2)) := by
  simp [absGoF, hq]

theorem absGoF_mono (known : List String) (repl : List Char → Char → List Char) :
    ∀ (f1 f2 : Nat) (cs : List Char), cs.length ≤ f1 → cs.length ≤ f2 →
      absGoF known repl f1 cs = absGoF known repl f2 cs := by
  intro f1
  induction f1 with
  | zero =>
    intro f2 cs h1 h2
    have hnil : cs = [] := List.eq_nil_of_length_eq_zero (Nat.le_zero.mp h1)
    subst hnil
    cases f2 <;> simp [absGoF]
  | succ f ih =>
    intro f2 cs h1 h2
    cases cs with
    | nil => cases f2 <;> simp [absGoF]
    | cons c rest =>
      cases f2 with
      | zero => simp at h2
      | succ f2' =>
        have hrest : rest.length ≤ f := by simpa using h1
        have hrest2 : rest.length ≤ f2' := by simpa using h2
        by_cases hq : isQuoteChar c = true
        · cases rest with
          | nil =>
            rw [absGoF_cons_last, absGoF_cons_last, absGoF_nil, absGoF_nil]
          | cons c2 rest2 =>
            by_cases hs : c2 = '/'
            · subst hs
              rw [absGoF_quote_slash known repl f c rest2 hq,
                absGoF_quote_slash known repl f2' c rest2 hq]
              cases hm : scanSubpath rest2 with
              | none => simp [ih f2' ('/' :: rest2) hrest hrest2]
              | some x =>
                obtain ⟨sub, q, r⟩ := x
                have hlen := scanSubpath_length hm
                simp at hrest hrest2
                simp [ih f2' r (by omega) (by omega)]
            · rw [absGoF_quote_default known repl f c c2 rest2 hs,
                absGoF_quote_default known repl f2' c c2 rest2 hs,
                ih f2' (c2 :: rest2) hrest hrest2]
        · have hq2 : isQuoteChar c = false := by
            cases hcc : isQuoteChar c
            · rfl
            · exact absurd hcc hq
          rw [absGoF_cons_noquote known repl f c rest hq2,
            absGoF_cons_noquote known repl f2' c rest hq2,
            ih f2' rest hrest hrest2]

theorem aliasGoF_nil (tok : List Char) (repl : List Char → Char → List Char)
    (f : Nat) (prev : Option Char) : aliasGoF tok repl f prev [] = [] := by
  cases f <;> simp [aliasGoF]

theorem prefix_of_append_of_le {α : Type} {l A B : List α} (h : l <+: A ++ B)
    (hle : l.length ≤ A.length) : l <+: A := by
  obtain ⟨t, ht⟩ := h
  refine ⟨t.take (A.length - l.length), ?_⟩
  have h2 : (A ++ B).take A.length = (l ++ t).take A.length := by rw [ht]
  rw [List.take_left] at h2
  rw [List.take_append_eq_append_take] at h2
  rw [List.take_of_length_le hle] at h2
  exact h2.symm

theorem aliasGoF_skip (tok : List Char) (repl : List Char → Char → List Char) :
    ∀ (pre : List Char) (n : Nat) (prev : Option Char) (rest : List Char),
      (∀ i, i < pre.length → (tok ++ ['/']).isPrefixOf ((pre ++ rest).drop i) = false) →
      aliasGoF tok repl (pre.length + n) prev (pre ++ rest) =
        pre ++ aliasGoF tok repl n ((pre.getLast?).or prev) rest := by
  intro pre
  induction pre with
  | nil => intro n prev rest h; simp
  | cons c pre' ih =>
    intro n prev rest h
    have h0 := h 0 (by simp)
    simp only [List.drop_zero, List.cons_append] at h0
    have hm : matchAlias tok (c :: (pre' ++ rest)) = none := by
      unfold matchAlias
      rw [if_neg]
      simp [h0]
    have hlen : (c :: pre').length + n = (pre'.length + n) + 1 := by simp; omega
    have hstep : aliasGoF tok repl ((pre'.length + n) + 1) prev (c :: (pre' ++ rest)) =
        c :: aliasGoF tok repl (pre'.length + n) (some c) (pre' ++ rest) := by
      by_cases hp : prev = some '/'
      · simp [aliasGoF, hp]
      · simp [aliasGoF, hp, hm]
    have hshift : ∀ i, i < pre'.length →
        (tok ++ ['/']).isPrefixOf ((pre' ++ rest).drop i) = false := by
      intro i hi
      have := h (i + 1) (by simp; omega)
      simpa using this
    have hih := ih n (some c) rest hshift
    have hlast : ((c :: pre').getLast?).or prev = (pre'.getLast?).or (some c) := by
      cases pre' with
      | nil => simp
      | cons d t =>
        cases hgl : (d :: t).getLast? with
        | none => simp [List.getLast?_eq_none_iff] at hgl
        | some x => simp [List.getLast?_cons_cons, hgl]
    rw [List.cons_append, hlen, hstep, hih, hlast]
    rfl

theorem aliasGoF_fix (tok : List Char) (repl : List Char → Char → List Char) :
    ∀ (f : Nat) (cs : List Char) (prev : Option Char),
      ((tok ++ ['/']).isPrefixOf cs = true → prev = some '/') →
      (∀ i, (tok ++ ['/']).isPrefixOf (cs.drop (i + 1)) = true → cs[i]? = some '/') →
      aliasGoF tok repl f prev cs = cs := by
  intro f
  induction f with
  | zero => intro cs prev h0 h1; simp [aliasGoF]
  | succ f ih =>
    intro cs prev h0 h1
    cases cs with
    | nil => simp [aliasGoF]
    | cons c rest =>
      have hstep : aliasGoF tok repl (f + 1) prev (c :: rest) =
          c :: aliasGoF tok repl f (some c) rest := by
        by_cases hp : prev = some '/'
        · simp [aliasGoF, hp]
        · have hm : matchAlias tok (c :: rest) = none := by
            unfold matchAlias
            rw [if_neg]
            intro hc
            exact hp (h0 hc)
          simp [aliasGoF, hp, hm]
      rw [hstep]
      congr 1
      apply ih
      · intro hpre
        have hc := h1 0 (by simpa using hpre)
        simp at hc
        simp [hc]
      · intro i hpre
        have := h1 (i + 1) (by simpa using hpre)
        simpa using this

theorem aliasRun_rewrites (tok : List Char) (repl : List Char → Char → List Char)
    (pre sub post : List Char) (q : Char)
    (htok : tok ≠ [])
    (hq : isQuoteChar q = true)
    (hsub : ∀ c ∈ sub, isRegexDotChar c = true ∧ isQuoteChar c = false)
    (hocc : ∀ i, i < pre.length → (tok ++ ['/']).isPrefixOf ((pre ++ (tok ++ ['/'])).drop i) = false)
    (hlast : pre.getLast? ≠ some '/') :
    aliasRun tok repl (pre ++ (tok ++ '/' :: (sub ++ q :: post))) =
      pre ++ (repl sub q ++ aliasResume tok repl q post) := by
  have hassoc : pre ++ (tok ++ '/' :: (sub ++ q :: post)) =
      (pre ++ (tok ++ ['/'])) ++ (sub ++ q :: post) := by simp
  have hocc2 : ∀ i, i < pre.length →
      (tok ++ ['/']).isPrefixOf ((pre ++ (tok ++ '/' :: (sub ++ q :: post))).drop i) = false := by
    intro i hi
    cases hb : (tok ++ ['/']).isPrefixOf ((pre ++ (tok ++ '/' :: (sub ++ q :: post))).drop i) with
    | false => rfl
    | true =>
      exfalso
      have hpref := List.isPrefixOf_iff_prefix.mp hb
      rw [hassoc] at hpref
      rw [List.drop_append_eq_append_drop] at hpref
      have hz : i - (pre ++ (tok ++ ['/'])).length = 0 := by simp; omega
      rw [hz, List.drop_zero] at hpref
      have hlen2 : (tok ++ ['/']).length ≤ ((pre ++ (tok ++ ['/'])).drop i).length := by
        simp
        omega
      have hA := prefix_of_append_of_le hpref hlen2
      have hoc := hocc i hi
      rw [List.isPrefixOf_iff_prefix.mpr hA] at hoc
      simp at hoc
  unfold aliasRun
  rw [List.length_append]
  rw [aliasGoF_skip tok repl pre _ none _ hocc2]
  congr 1
  have hprev : (pre.getLast?).or none ≠ some '/' := by
    cases hgl : pre.getLast? with
    | none => simp
    | some x =>
      rw [hgl] at hlast
      simp
      intro hx
      exact hlast (by rw [hx])
  obtain ⟨t0, tt, rfl⟩ : ∃ t0 tt, tok = t0 :: tt := by
    cases tok with
    | nil => exact absurd rfl htok
    | cons a b => exact ⟨a, b, rfl⟩
  have hm : matchAlias (t0 :: tt) (t0 :: (tt ++ '/' :: (sub ++ q :: post))) = some (sub, q, post) := by
    unfold matchAlias
    rw [if_pos]
    · have hsplit : t0 :: (tt ++ '/' :: (sub ++ q :: post)) =
          ((t0 :: tt) ++ ['/']) ++ (sub ++ q :: post) := by simp
      rw [hsplit]
      have hdrop : (((t0 :: tt) ++ ['/']) ++ (sub ++ q :: post)).drop ((t0 :: tt).length + 1) =
          sub ++ q :: post := by
        simp
      rw [hdrop]
      exact scanSubpath_complete sub q post hsub hq
    · rw [List.isPrefixOf_iff_prefix]
      exact ⟨sub ++ q :: post, by simp⟩
  show aliasGoF (t0 :: tt) repl ((tt ++ '/' :: (sub ++ q :: post)).length + 1)
      ((pre.getLast?).or none) (t0 :: (tt ++ '/' :: (sub ++ q :: post))) = _
  simp only [aliasGoF]
  rw [if_neg hprev]
  simp only [hm]
  congr 1
  unfold aliasResume
  apply aliasGoF_mono
  · simp
    omega
  · exact Nat.le_refl _

/-- C1: for an alias token mapped to a target directory, an occurrence in
the file text of the token immediately followed by a slash and a subpath
terminated by a quote, where the token is not preceded by a slash (the
hypotheses say the occurrence is the first match attempt that can
succeed: no token occurrence starts earlier, the subpath has no quotes or
line terminators), is replaced by the relative path from the directory of
the file to the join of the target directory and the subpath, followed by
the same terminating quote character; the scan then continues after the
quote. -/
theorem C1_alias_specifier_rewrite (cwd target fp : String) (tok pre sub post : List Char)
    (q : Char)
    (htok : tok ≠ [])
    (hq : isQuoteChar q = true)
    (hsub : ∀ c ∈ sub, isRegexDotChar c = true ∧ isQuoteChar c = false)
    (hocc : ∀ i, i < pre.length →
      (tok ++ ['/']).isPrefixOf ((pre ++ (tok ++ ['/'])).drop i) = false)
    (hlast : pre.getLast? ≠ some '/') :
    aliasPass cwd fp ⟨tok⟩ target ⟨pre ++ (tok ++ '/' :: (sub ++ q :: post))⟩ =
      ⟨pre ++ ((prelative cwd (pdirname fp) (pjoin target ⟨sub⟩)).data ++
        q :: aliasResume tok (aliasRepl cwd target fp) q post)⟩ := by
  have h := aliasRun_rewrites tok (aliasRepl cwd target fp) pre sub post q htok hq hsub hocc hlast
  show (⟨aliasRun tok (aliasRepl cwd target fp) (pre ++ (tok ++ '/' :: (sub ++ q :: post)))⟩ : String) = _
  rw [h]
  simp [aliasRepl]

/-- Witness for C1 at the end-to-end example of the specification. -/
theorem C1_alias_specifier_rewrite_witness :
    aliasPass "/proj" "/proj/src/components/A.vue" ⟨"~".data⟩ "/proj/src"
        ⟨"import X from \"".data ++ ("~".data ++ '/' :: ("utils/x".data ++ '"' :: []))⟩ =
      ⟨"import X from \"".data ++ ((prelative "/proj" (pdirname "/proj/src/components/A.vue")
          (pjoin "/proj/src" ⟨"utils/x".data⟩)).data ++
        '"' :: aliasResume "~".data
          (aliasRepl "/proj" "/proj/src" "/proj/src/components/A.vue") '"' [])⟩ :=
  C1_alias_specifier_rewrite "/proj" "/proj/src" "/proj/src/components/A.vue" "~".data
    "import X from \"".data "utils/x".data [] '"' (by decide) (by decide) (by decide)
    (by decide) (by decide)

/-- C3: an occurrence of an alias token immediately preceded by a slash is
never rewritten: when the only place where the token followed by a slash
occurs in the content is right after that preceding slash, the
substitution pass for the token leaves the whole content unchanged. -/
theorem C3_slash_preceded_not_rewritten (cwd target fp : String) (tok pre rest : List Char)
    (hocc : ∀ i, i < (pre ++ '/' :: (tok ++ '/' :: rest)).length →
      (tok ++ ['/']).isPrefixOf ((pre ++ '/' :: (tok ++ '/' :: rest)).drop i) = true →
      i = pre.length + 1) :
    aliasPass cwd fp ⟨tok⟩ target ⟨pre ++ '/' :: (tok ++ '/' :: rest)⟩ =
      ⟨pre ++ '/' :: (tok ++ '/' :: rest)⟩ := by
  have hne : (tok ++ ['/']) ≠ [] := by simp
  have hnil : ∀ l : List Char, l.length ≤ 0 + l.length := by intro l; simp
  have hbig : ∀ j, (pre ++ '/' :: (tok ++ '/' :: rest)).length ≤ j →
      (tok ++ ['/']).isPrefixOf ((pre ++ '/' :: (tok ++ '/' :: rest)).drop j) = false := by
    intro j hj
    rw [List.drop_eq_nil_of_le hj]
    cases htk : tok ++ ['/'] with
    | nil => exact absurd htk hne
    | cons a l => simp [List.isPrefixOf]
  have hfix := aliasGoF_fix tok (aliasRepl cwd target fp)
    (pre ++ '/' :: (tok ++ '/' :: rest)).length (pre ++ '/' :: (tok ++ '/' :: rest)) none
    ?_ ?_
  · show (⟨aliasRun tok (aliasRepl cwd target fp) (pre ++ '/' :: (tok ++ '/' :: rest))⟩ : String) = _
    unfold aliasRun
    rw [hfix]
  · intro hpre
    exfalso
    by_cases hlt : 0 < (pre ++ '/' :: (tok ++ '/' :: rest)).length
    · have := hocc 0 hlt (by simpa using hpre)
      omega
    · simp at hlt
  · intro i hpre
    by_cases hlt : i + 1 < (pre ++ '/' :: (tok ++ '/' :: rest)).length
    · have hi := hocc (i + 1) hlt hpre
      have hieq : i = pre.length := by omega
      subst hieq
      rw [List.getElem?_append_right (by simp)]
      simp
    · exfalso
      have hj : (pre ++ '/' :: (tok ++ '/' :: rest)).length ≤ i + 1 := by omega
      rw [hbig (i + 1) hj] at hpre
      simp at hpre

/-- Witness for C3: a specifier whose alias token is preceded by a slash
is left unchanged. -/
theorem C3_slash_preceded_not_rewritten_witness :
    aliasPass "/proj" "/proj/src/A.vue" ⟨"@".data⟩ "/proj/src"
        ⟨"p = \"".data ++ '/' :: ("@".data ++ '/' :: "x\"".data)⟩ =
      ⟨"p = \"".data ++ '/' :: ("@".data ++ '/' :: "x\"".data)⟩ :=
  C3_slash_preceded_not_rewritten "/proj" "/proj/src" "/proj/src/A.vue" "@".data
    "p = \"".data "x\"".data (by decide)

theorem absGoF_skip (known : List String) (repl : List Char → Char → List Char) :
    ∀ (pre : List Char) (n : Nat) (rest : List Char),
      (∀ c ∈ pre, isQuoteChar c = false) →
      absGoF known repl (pre.length + n) (pre ++ rest) = pre ++ absGoF known repl n rest := by
  intro pre
  induction pre with
  | nil => intro n rest h; simp
  | cons c pre' ih =>
    intro n rest h
    have hc := h c (by simp)
    have hlen : (c :: pre').length + n = (pre'.length + n) + 1 := by simp; omega
    rw [List.cons_append, hlen, absGoF_cons_noquote known repl _ c _ hc,
      ih n rest (fun x hx => h x (by simp [hx]))]
    rfl

/-- C4: in absolute-path mode, a string-literal specifier formed of a
quote, a root slash, a subpath and the same quote again is rewritten
exactly when the first slash-separated segment of the subpath is a known
directory: it becomes the quote, the relative path from the directory of
the file to the join of the effective root (the source directory when the
file path starts with it, otherwise the project root) with the subpath,
and the quote again; otherwise the whole specifier is kept byte for byte.
The hypotheses locate the specifier: the preceding text holds no quote
character and the subpath holds no quote or line terminator. -/
theorem C4_absolute_specifier_rewrite (cwd fp : String) (known : List String)
    (pre sub post : List Char) (q : Char)
    (hq : isQuoteChar q = true)
    (hpre : ∀ c ∈ pre, isQuoteChar c = false)
    (hsub : ∀ c ∈ sub, isRegexDotChar c = true ∧ isQuoteChar c = false) :
    absolutePass cwd fp known ⟨pre ++ q :: '/' :: (sub ++ q :: post)⟩ =
      ⟨pre ++ ((if known.contains (firstSegment sub)
          then absRepl cwd (effectiveRoot cwd (presolve cwd "src") fp) fp sub q
          else q :: '/' :: sub ++ [q]) ++
        absResume known (absRepl cwd (effectiveRoot cwd (presolve cwd "src") fp) fp) post)⟩ := by
  show (⟨absRun known (absRepl cwd (effectiveRoot cwd (presolve cwd "src") fp) fp)
      (pre ++ q :: '/' :: (sub ++ q :: post))⟩ : String) = _
  congr 1
  unfold absRun
  have hlen : (pre ++ q :: '/' :: (sub ++ q :: post)).length =
      pre.length + (q :: '/' :: (sub ++ q :: post)).length := by simp
  rw [hlen, absGoF_skip known _ pre _ _ hpre]
  congr 1
  show absGoF known (absRepl cwd (effectiveRoot cwd (presolve cwd "src") fp) fp)
      (('/' :: (sub ++ q :: post)).length + 1) (q :: '/' :: (sub ++ q :: post)) = _
  rw [absGoF_quote_slash known _ _ q _ hq]
  rw [scanSubpath_complete sub q post hsub hq]
  show (if known.contains (firstSegment sub) = true then
      absRepl cwd (effectiveRoot cwd (presolve cwd "src") fp) fp sub q
    else q :: '/' :: sub ++ [q]) ++
      absGoF known (absRepl cwd (effectiveRoot cwd (presolve cwd "src") fp) fp)
        ('/' :: (sub ++ q :: post)).length post = _
  congr 1
  unfold absResume
  apply absGoF_mono
  · simp
    omega
  · exact Nat.le_refl _

/-- Witness for C4 at the eligibility example of the specification. -/
theorem C4_absolute_specifier_rewrite_witness :
    absolutePass "/proj" "/proj/src/pages/index.vue" ["components"]
        ⟨"import c from ".data ++ '"' :: '/' :: ("components/Foo.vue".data ++ '"' :: [])⟩ =
      ⟨"import c from ".data ++ ((if ["components"].contains (firstSegment "components/Foo.vue".data)
          then absRepl "/proj" (effectiveRoot "/proj" (presolve "/proj" "src") "/proj/src/pages/index.vue")
            "/proj/src/pages/index.vue" "components/Foo.vue".data '"'
          else '"' :: '/' :: "components/Foo.vue".data ++ ['"']) ++
        absResume ["components"]
          (absRepl "/proj" (effectiveRoot "/proj" (presolve "/proj" "src") "/proj/src/pages/index.vue")
            "/proj/src/pages/index.vue") [])⟩ :=
  C4_absolute_specifier_rewrite "/proj" "/proj/src/pages/index.vue" ["components"]
    "import c from ".data "components/Foo.vue".data [] '"' (by decide) (by decide) (by decide)

theorem applyAliases_fix (cwd fp : String) :
    ∀ (L : List (String × String)) (c : String),
      (∀ a ∈ L, aliasPass cwd fp a.1 a.2 c = c) → applyAliases cwd fp L c = c := by
  intro L
  induction L with
  | nil => intro c h; rfl
  | cons a L ih =>
    intro c h
    unfold applyAliases
    simp only [List.foldl_cons]
    rw [h a (by simp)]
    exact ih c (fun x hx => h x (by simp [hx]))

/-- C2 fails on the code: with the resolved alias table of a configuration
that overrides the `assets` alias and declares an alias `u` targeting a
directory literally named `assets` under the source directory, the first
run rewrites the specifier to a relative path that begins with the token
`assets`, and the second run rewrites that again; the composed
transformation differs from a single run. -/
theorem C2_counterexample :
    transformFile "/proj" false []
        (getAliasesWithPaths "/proj" "/proj/src" [("assets", "/elsewhere"), ("u", "/proj/src/assets")])
        "/proj/src/f.ts"
        (transformFile "/proj" false []
          (getAliasesWithPaths "/proj" "/proj/src" [("assets", "/elsewhere"), ("u", "/proj/src/assets")])
          "/proj/src/f.ts" "\"u/y\"") ≠
      transformFile "/proj" false []
        (getAliasesWithPaths "/proj" "/proj/src" [("assets", "/elsewhere"), ("u", "/proj/src/assets")])
        "/proj/src/f.ts" "\"u/y\"" := by decide

/-- C2 amended: a second run changes nothing exactly in the converged
situation the specification reasons from, namely when no alias pass (and,
in absolute mode, not the absolute stage either) finds anything left to
rewrite in the output of the first run.  For such inputs the full rewrite
is idempotent; the counterexample shows the side condition is not
automatic, because a first run can manufacture a new alias match. -/
theorem C2_idempotent_when_converged (cwd : String) (absMode : Bool) (known : List String)
    (aliases : List (String × String)) (fp c : String)
    (hfix : ∀ a ∈ aliases,
      aliasPass cwd fp a.1 a.2 (transformFile cwd absMode known aliases fp c) =
        transformFile cwd absMode known aliases fp c)
    (habs : absMode = true →
      absolutePass cwd fp known (transformFile cwd absMode known aliases fp c) =
        transformFile cwd absMode known aliases fp c) :
    transformFile cwd absMode known aliases fp (transformFile cwd absMode known aliases fp c) =
      transformFile cwd absMode known aliases fp c := by
  have hApply := applyAliases_fix cwd fp aliases (transformFile cwd absMode known aliases fp c) hfix
  have hunfold : transformFile cwd absMode known aliases fp (transformFile cwd absMode known aliases fp c) =
      (if absMode then
        absolutePass cwd fp known
          (applyAliases cwd fp aliases (transformFile cwd absMode known aliases fp c))
      else applyAliases cwd fp aliases (transformFile cwd absMode known aliases fp c)) := rfl
  rw [hunfold, hApply]
  cases absMode with
  | false => simp
  | true =>
    simp only [if_true]
    exact habs rfl

/-- Witness for the amended C2 on a converged rewrite. -/
theorem C2_idempotent_when_converged_witness :
    transformFile "/proj" false [] [("@", "/proj/src")] "/proj/src/a/f.ts"
        (transformFile "/proj" false [] [("@", "/proj/src")] "/proj/src/a/f.ts" "\"@/x\"") =
      transformFile "/proj" false [] [("@", "/proj/src")] "/proj/src/a/f.ts" "\"@/x\"" :=
  C2_idempotent_when_converged "/proj" false [] [("@", "/proj/src")] "/proj/src/a/f.ts" "\"@/x\""
    (by decide) (by intro h; simp at h)

/-- C5 fails on the code: with the default alias table, the token `~`
matches inside an occurrence of `~~` (the lookbehind sees `~`, not a
slash), so processing the table in its given order differs from
processing it in reverse order on a content holding a `~~` specifier. -/
theorem C5_counterexample :
    applyAliases "/proj" "/proj/src/components/A.vue"
        (getAliasesWithPaths "/proj" "/proj/src" []) "\"~~/x\"" ≠
      applyAliases "/proj" "/proj/src/components/A.vue"
        (getAliasesWithPaths "/proj" "/proj/src" []).reverse "\"~~/x\"" := by decide

/-- C5 amended: the per-alias passes are folded over the content in the
table order, and the accumulated result is not order-independent in
general (tokens can overlap, as with the default tokens `~` and `~~`);
any two orderings of the table do agree whenever no alias pass changes
the content, in which case every ordering returns the content itself. -/
theorem C5_order_independent_when_no_match (cwd fp : String)
    (L1 L2 : List (String × String)) (c : String)
    (hperm : L1.Perm L2)
    (hfix : ∀ a ∈ L1, aliasPass cwd fp a.1 a.2 c = c) :
    applyAliases cwd fp L1 c = applyAliases cwd fp L2 c := by
  rw [applyAliases_fix cwd fp L1 c hfix,
    applyAliases_fix cwd fp L2 c (fun a ha => hfix a (hperm.mem_iff.mpr ha))]

/-- Witness for the amended C5 on a two-entry table and a content with no
alias occurrence. -/
theorem C5_order_independent_when_no_match_witness :
    applyAliases "/p" "/p/src/f.ts" [("@", "/p/a"), ("~", "/p/b")] "\"x\"" =
      applyAliases "/p" "/p/src/f.ts" [("~", "/p/b"), ("@", "/p/a")] "\"x\"" :=
  C5_order_independent_when_no_match "/p" "/p/src/f.ts" _ _ "\"x\""
    (List.Perm.swap _ _ _) (by decide)

theorem lookup_filter_of_lookup_none (D : List (String × String)) :
    ∀ (user : List (String × String)) (t : String), List.lookup t D = none →
      List.lookup t (user.filter (fun u => (List.lookup u.1 D).isNone)) =
        List.lookup t user := by
  intro user
  induction user with
  | nil => intro t h; rfl
  | cons u us ih =>
    intro t h
    by_cases ht : t = u.1
    · have hk : (List.lookup u.1 D).isNone = true := by rw [← ht, h]; rfl
      have hfc : List.filter (fun u => (List.lookup u.1 D).isNone) (u :: us) =
          u :: List.filter (fun u => (List.lookup u.1 D).isNone) us := by
        simp [List.filter_cons, hk]
      rw [hfc]
      have hb : (t == u.1) = true := beq_iff_eq.mpr ht
      obtain ⟨k, v⟩ := u
      simp only [List.lookup, hb]
    · obtain ⟨k, v⟩ := u
      have hb : (t == k) = false := beq_eq_false_iff_ne.mpr ht
      by_cases hk : (List.lookup k D).isNone = true
      · have hfc : List.filter (fun u => (List.lookup u.1 D).isNone) ((k, v) :: us) =
            (k, v) :: List.filter (fun u => (List.lookup u.1 D).isNone) us := by
          simp [List.filter_cons, hk]
        rw [hfc]
        simp only [List.lookup, hb]
        exact ih t h
      · have hk2 : (List.lookup k D).isNone = false := by
          cases hx : (List.lookup k D).isNone
          · rfl
          · exact absurd hx hk
        have hfc : List.filter (fun u => (List.lookup u.1 D).isNone) ((k, v) :: us) =
            List.filter (fun u => (List.lookup u.1 D).isNone) us := by
          simp [List.filter_cons, hk2]
        rw [hfc]
        rw [ih t h]
        simp only [List.lookup, hb]

theorem lookup_append_of_none {t : String} {l1 l2 : List (String × String)}
    (h : List.lookup t l1 = none) : List.lookup t (l1 ++ l2) = List.lookup t l2 := by
  induction l1 with
  | nil => rfl
  | cons a l ih =>
    obtain ⟨k, v⟩ := a
    simp only [List.lookup, List.cons_append] at h ⊢
    revert h
    cases hb : (t == k) with
    | true => intro h; exact Option.noConfusion h
    | false => intro h; exact ih h

/-- C6: the resolved alias table equals the six defaults overlaid by the
user-declared aliases: looking up any token yields the user value when
the user declares the token (silently overwriting a default on
collision, no error) and the default value otherwise; in particular a
user declaration for `@` overrides the source-directory default. -/
theorem C6_alias_table_defaults_overlaid (rootDir srcDir : String)
    (user : List (String × String)) (t : String) :
    List.lookup t (getAliasesWithPaths rootDir srcDir user) =
      (List.lookup t user).orElse (fun _ => List.lookup t (defaultAliases rootDir srcDir)) := by
  by_cases h1 : t = "~"
  · subst h1
    cases hu : List.lookup "~" user <;>
      simp [getAliasesWithPaths, spreadMerge, defaultAliases, List.lookup, hu]
  by_cases h2 : t = "@"
  · subst h2
    cases hu : List.lookup "@" user <;>
      simp [getAliasesWithPaths, spreadMerge, defaultAliases, List.lookup, hu]
  by_cases h3 : t = "~~"
  · subst h3
    cases hu : List.lookup "~~" user <;>
      simp [getAliasesWithPaths, spreadMerge, defaultAliases, List.lookup, hu]
  by_cases h4 : t = "@@"
  · subst h4
    cases hu : List.lookup "@@" user <;>
      simp [getAliasesWithPaths, spreadMerge, defaultAliases, List.lookup, hu]
  by_cases h5 : t = "assets"
  · subst h5
    cases hu : List.lookup "assets" user <;>
      simp [getAliasesWithPaths, spreadMerge, defaultAliases, List.lookup, hu]
  by_cases h6 : t = "public"
  · subst h6
    cases hu : List.lookup "public" user <;>
      simp [getAliasesWithPaths, spreadMerge, defaultAliases, List.lookup, hu]
  have b1 : (t == "~") = false := beq_eq_false_iff_ne.mpr h1
  have b2 : (t == "@") = false := beq_eq_false_iff_ne.mpr h2
  have b3 : (t == "~~") = false := beq_eq_false_iff_ne.mpr h3
  have b4 : (t == "@@") = false := beq_eq_false_iff_ne.mpr h4
  have b5 : (t == "assets") = false := beq_eq_false_iff_ne.mpr h5
  have b6 : (t == "public") = false := beq_eq_false_iff_ne.mpr h6
  have hD : List.lookup t (defaultAliases rootDir srcDir) = none := by
    simp [defaultAliases, List.lookup, b1, b2, b3, b4, b5, b6]
  have hmapped : List.lookup t ((defaultAliases rootDir srcDir).map
      (fun d => (d.1, (List.lookup d.1 user).getD d.2))) = none := by
    simp [defaultAliases, List.lookup, b1, b2, b3, b4, b5, b6]
  show List.lookup t ((defaultAliases rootDir srcDir).map
      (fun d => (d.1, (List.lookup d.1 user).getD d.2)) ++
      user.filter (fun u => (List.lookup u.1 (defaultAliases rootDir srcDir)).isNone)) = _
  rw [lookup_append_of_none hmapped,
    lookup_filter_of_lookup_none (defaultAliases rootDir srcDir) user t hD, hD]
  cases hu : List.lookup t user <;> simp [hu, Option.orElse]

/-- C7: a file is written back only when both conditions hold: its path
ends with one of the four accepted extensions, and the transformed
content differs from the content that was read.  Every write event of a
whole run carries an accepted-extension path and a content that is the
transformation of some read content it differs from; files outside the
extension set, and unchanged files, produce no write event. -/
theorem C7_write_only_changed_accepted (cwd : String) (absMode : Bool) (known : List String)
    (aliases : List (String × String)) (fuel : Nat) (d : String) (entries : List FsEntry)
    (p c' : String)
    (hw : FileEvent.write p c' ∈ replaceAliasesF cwd absMode known aliases fuel d entries) :
    acceptedExt p = true ∧
      ∃ c0, c' = transformFile cwd absMode known aliases p c0 ∧ c' ≠ c0 := by
  induction fuel generalizing d entries with
  | zero => simp [replaceAliasesF] at hw
  | succ f ih =>
    simp only [replaceAliasesF, List.mem_cons] at hw
    cases hw with
    | inl h => exact FileEvent.noConfusion h
    | inr h =>
      rw [List.mem_flatMap] at h
      obtain ⟨e, he, hme⟩ := h
      cases e with
      | dir n es => exact ih (pjoin d n) es hme
      | file n c =>
        replace hme : FileEvent.write p c' ∈
            (if acceptedExt (pjoin d n) = true then
              FileEvent.read (pjoin d n) ::
                (if transformFile cwd absMode known aliases (pjoin d n) c = c then []
                 else [FileEvent.write (pjoin d n)
                   (transformFile cwd absMode known aliases (pjoin d n) c)])
             else []) := hme
        by_cases hext : acceptedExt (pjoin d n) = true
        · rw [if_pos hext] at hme
          simp only [List.mem_cons] at hme
          cases hme with
          | inl habs => exact FileEvent.noConfusion habs
          | inr hme2 =>
            by_cases hch : transformFile cwd absMode known aliases (pjoin d n) c = c
            · rw [if_pos hch] at hme2
              simp at hme2
            · rw [if_neg hch] at hme2
              simp only [List.mem_singleton] at hme2
              rw [FileEvent.write.injEq] at hme2
              obtain ⟨hp, hc⟩ := hme2
              subst hp
              subst hc
              exact ⟨hext, c, rfl, hch⟩
        · rw [if_neg hext] at hme
          simp at hme

/-- Witness for C7: a concrete write event of a one-file tree satisfies
the extension and changed-content conditions. -/
theorem C7_write_only_changed_accepted_witness :
    acceptedExt "/proj/src/A.vue" = true ∧
      ∃ c0, "import X from \"x\"" =
          transformFile "/proj" false [] [("@", "/proj/src")] "/proj/src/A.vue" c0 ∧
        ("import X from \"x\"" : String) ≠ c0 :=
  C7_write_only_changed_accepted "/proj" false [] [("@", "/proj/src")] 1 "/proj/src"
    [FsEntry.file "A.vue" "import X from \"@/x\""] "/proj/src/A.vue" "import X from \"x\""
    (by decide)

/-- C8: a missing configuration file, or a failing configuration load,
makes the run exit with code 1 before any file event is produced
(nothing is read or written); with a configuration present and a
successful load the walker runs from `resolve(cwd, "src")` and the exit
code is 0. -/
theorem C8_exit_codes (cwd : String) (configExists : Bool)
    (loadResult : Option (List (String × String))) (absMode : Bool) (known : List String)
    (fuel : Nat) (tree : List FsEntry) :
    ((configExists = false ∨ loadResult = none) →
      mainRun cwd configExists loadResult absMode known fuel tree = (1, [])) ∧
    (∀ aliases, configExists = true → loadResult = some aliases →
      mainRun cwd configExists loadResult absMode known fuel tree =
        (0, replaceAliasesF cwd absMode known aliases fuel (presolve cwd "src") tree)) := by
  constructor
  · intro h
    cases h with
    | inl hc => subst hc; rfl
    | inr hl => subst hl; cases configExists <;> rfl
  · intro aliases hc hl
    subst hc
    subst hl
    rfl

/-- Witness for C8: with no configuration file the run exits with code 1
and produces no file event. -/
theorem C8_exit_codes_witness :
    mainRun "/proj" false none false [] 1 [FsEntry.file "A.vue" "x"] = (1, []) :=
  (C8_exit_codes "/proj" false none false [] 1 [FsEntry.file "A.vue" "x"]).1 (Or.inl rfl)

theorem countP_flatMap {α β : Type} (p : β → Bool) (g : α → List β) :
    ∀ l : List α, ((l.flatMap g).countP p) = (l.map (fun e => (g e).countP p)).sum := by
  intro l
  induction l with
  | nil => rfl
  | cons e l ih => simp [List.flatMap_cons, List.countP_append, ih]

/-- C9 fails on the code: `replaceAliases` awaits `getAliasesWithPaths`
at the top of every invocation and invokes itself on each subdirectory,
so a run whose tree holds one subdirectory performs two configuration
loads, not exactly one. -/
theorem C9_counterexample :
    ¬ ((replaceAliasesF "/proj" false [] [] 1 "/proj/src"
        [FsEntry.dir "components" []]).countP isLoadEvent = 1) := by decide

/-- C9 amended: the Alias Table is recomputed at every directory visit,
not once per run: the number of configuration-load events of a run
equals one (for the start directory) plus the number of subdirectories
the walker recurses into. -/
theorem C9_one_load_per_directory (cwd : String) (absMode : Bool) (known : List String)
    (aliases : List (String × String)) :
    ∀ (fuel : Nat) (d : String) (entries : List FsEntry),
      (replaceAliasesF cwd absMode known aliases fuel d entries).countP isLoadEvent =
        1 + subdirCountF fuel entries := by
  intro fuel
  induction fuel with
  | zero =>
    intro d entries
    simp [replaceAliasesF, subdirCountF, isLoadEvent]
  | succ f ih =>
    intro d entries
    have hload : isLoadEvent FileEvent.load = true := rfl
    simp only [replaceAliasesF, subdirCountF]
    rw [List.countP_cons_of_pos _ _ hload, countP_flatMap]
    have hmap : ∀ e ∈ entries,
        ((match e with
          | FsEntry.file n c =>
            if acceptedExt (pjoin d n) = true then
              FileEvent.read (pjoin d n) ::
                (if transformFile cwd absMode known aliases (pjoin d n) c = c then []
                 else [FileEvent.write (pjoin d n)
                   (transformFile cwd absMode known aliases (pjoin d n) c)])
            else []
          | FsEntry.dir n es =>
            replaceAliasesF cwd absMode known aliases f (pjoin d n) es).countP isLoadEvent) =
          (match e with
           | FsEntry.file _ _ => 0
           | FsEntry.dir _ es => 1 + subdirCountF f es) := by
      intro e he
      cases e with
      | file n c =>
        show List.countP isLoadEvent
            (if acceptedExt (pjoin d n) = true then
              FileEvent.read (pjoin d n) ::
                (if transformFile cwd absMode known aliases (pjoin d n) c = c then []
                 else [FileEvent.write (pjoin d n)
                   (transformFile cwd absMode known aliases (pjoin d n) c)])
             else []) = 0
        by_cases hext : acceptedExt (pjoin d n) = true
        · rw [if_pos hext]
          by_cases hch : transformFile cwd absMode known aliases (pjoin d n) c = c
          · rw [if_pos hch]
            simp [isLoadEvent]
          · rw [if_neg hch]
            simp [isLoadEvent]
        · rw [if_neg hext]
          rfl
      | dir n es => exact ih (pjoin d n) es
    show (List.map (fun e =>
        (match e with
          | FsEntry.file n c =>
            if acceptedExt (pjoin d n) = true then
              FileEvent.read (pjoin d n) ::
                (if transformFile cwd absMode known aliases (pjoin d n) c = c then []
                 else [FileEvent.write (pjoin d n)
                   (transformFile cwd absMode known aliases (pjoin d n) c)])
            else []
          | FsEntry.dir n es =>
            replaceAliasesF cwd absMode known aliases f (pjoin d n) es).countP isLoadEvent)
        entries).sum + 1 =
      1 + (List.map (fun e =>
        (match e with
         | FsEntry.file _ _ => 0
         | FsEntry.dir _ es => 1 + subdirCountF f es)) entries).sum
    rw [List.map_congr_left hmap]
    omega

theorem noSlash_iff {s : List Char} : noSlash s = true ↔ ∀ c ∈ s, c ≠ '/' := by
  simp [noSlash]

theorem plainSegCh_iff {s : List Char} :
    plainSegCh s = true ↔ s ≠ [] ∧ s ≠ ['.'] ∧ s ≠ ['.', '.'] ∧ noSlash s = true := by
  simp [plainSegCh, and_assoc]

theorem splitSlash_noSlash : ∀ (p : List Char), ∀ s ∈ splitSlash p, noSlash s = true := by
  intro p
  induction p with
  | nil =>
    intro s hs
    simp [splitSlash] at hs
    subst hs
    rfl
  | cons c rest ih =>
    intro s hs
    by_cases hc : c = '/'
    · subst hc
      rw [show splitSlash ('/' :: rest) = [] :: splitSlash rest from by
        simp [splitSlash]] at hs
      cases hs with
      | head => rfl
      | tail _ hmem => exact ih s hmem
    · rw [show splitSlash (c :: rest) =
          (match splitSlash rest with
           | [] => [[c]]
           | s :: ss => (c :: s) :: ss) from by simp [splitSlash, hc]] at hs
      cases hsp : splitSlash rest with
      | nil => rw [hsp] at hs; simp at hs; subst hs; simp [noSlash_iff, hc]
      | cons s0 ss =>
        rw [hsp] at hs
        cases hs with
        | head =>
          have h0 : noSlash s0 = true := ih s0 (by rw [hsp]; exact List.mem_cons_self s0 ss)
          rw [noSlash_iff] at h0 ⊢
          intro x hx
          cases hx with
          | head => exact hc
          | tail _ hxm => exact h0 x hxm
        | tail _ hmem => exact ih s (by rw [hsp]; exact List.mem_cons_of_mem s0 hmem)

theorem splitSlash_of_noSlash : ∀ (x : List Char), noSlash x = true → splitSlash x = [x] := by
  intro x
  induction x with
  | nil => intro h; rfl
  | cons c cs ih =>
    intro h
    rw [noSlash_iff] at h
    have hc : c ≠ '/' := h c (by simp)
    have hcs : noSlash cs = true := noSlash_iff.mpr (fun x hx => h x (by simp [hx]))
    simp [splitSlash, hc, ih hcs]

theorem splitSlash_append_slash : ∀ (a b : List Char), noSlash a = true →
    splitSlash (a ++ '/' :: b) = a :: splitSlash b := by
  intro a
  induction a with
  | nil => intro b h; simp [splitSlash]
  | cons c cs ih =>
    intro b h
    rw [noSlash_iff] at h
    have hc : c ≠ '/' := h c (by simp)
    have hcs : noSlash cs = true := noSlash_iff.mpr (fun x hx => h x (by simp [hx]))
    rw [List.cons_append]
    rw [show splitSlash (c :: (cs ++ '/' :: b)) =
        (match splitSlash (cs ++ '/' :: b) with
         | [] => [[c]]
         | s :: ss => (c :: s) :: ss) from by simp [splitSlash, hc]]
    rw [ih b hcs]

theorem joinSlash_cons_eq : ∀ (b : List (List Char)) (y : List Char),
    joinSlash (y :: b) = y ++ b.flatMap (fun s => '/' :: s) := by
  intro b
  induction b with
  | nil => intro y; simp [joinSlash]
  | cons z b' ih =>
    intro y
    rw [show joinSlash (y :: z :: b') = y ++ '/' :: joinSlash (z :: b') from by
      simp [joinSlash]]
    rw [ih z]
    simp

theorem splitSlash_joinSlash_append : ∀ (segs : List (List Char)) (n : List Char),
    segs ≠ [] → (∀ s ∈ segs, noSlash s = true) → noSlash n = true →
    splitSlash (joinSlash segs ++ '/' :: n) = segs ++ [n] := by
  intro segs
  induction segs with
  | nil => intro n h; exact absurd rfl h
  | cons s rest ih =>
    intro n _ hall hn
    cases rest with
    | nil =>
      rw [show joinSlash [s] = s from by simp [joinSlash]]
      rw [splitSlash_append_slash s n (hall s (by simp))]
      rw [splitSlash_of_noSlash n hn]
      rfl
    | cons s2 rest2 =>
      rw [show joinSlash (s :: s2 :: rest2) = s ++ '/' :: joinSlash (s2 :: rest2) from by
        simp [joinSlash]]
      rw [List.append_assoc, List.cons_append]
      rw [splitSlash_append_slash s (joinSlash (s2 :: rest2) ++ '/' :: n) (hall s (by simp))]
      rw [ih n (by simp) (fun x hx => hall x (by simp [hx])) hn]
      rfl

theorem normCore_plain_id : ∀ (l acc : List (List Char)),
    (∀ s ∈ l, plainSegCh s = true) → normCore false acc l = acc.reverse ++ l := by
  intro l
  induction l with
  | nil => intro acc _; simp [normCore]
  | cons s rest ih =>
    intro acc hl
    obtain ⟨h1, h2, h3, _⟩ := plainSegCh_iff.mp (hl s (by simp))
    rw [show normCore false acc (s :: rest) = normCore false (s :: acc) rest from by
      simp only [normCore]
      rw [if_neg (not_or.mpr ⟨h1, h2⟩), if_neg h3]]
    rw [ih (s :: acc) (fun x hx => hl x (by simp [hx]))]
    simp

theorem normCore_plain : ∀ (l acc : List (List Char)),
    (∀ a ∈ acc, plainSegCh a = true) → (∀ s ∈ l, noSlash s = true) →
    ∀ x ∈ normCore false acc l, plainSegCh x = true := by
  intro l
  induction l with
  | nil =>
    intro acc hacc _ x hx
    rw [show normCore false acc [] = acc.reverse from rfl] at hx
    exact hacc x (List.mem_reverse.mp hx)
  | cons s rest ih =>
    intro acc hacc hl x hx
    by_cases h1 : s = [] ∨ s = ['.']
    · rw [show normCore false acc (s :: rest) = normCore false acc rest from by
        simp only [normCore]; rw [if_pos h1]] at hx
      exact ih acc hacc (fun t ht => hl t (by simp [ht])) x hx
    · by_cases h2 : s = ['.', '.']
      · cases acc with
        | nil =>
          rw [show normCore false [] (s :: rest) = normCore false [] rest from by
            simp [normCore, h1, h2]] at hx
          exact ih [] (by simp) (fun t ht => hl t (by simp [ht])) x hx
        | cons a acc' =>
          by_cases h3 : a = ['.', '.']
          · exact absurd h3 (plainSegCh_iff.mp (hacc a (by simp))).2.2.1
          · rw [show normCore false (a :: acc') (s :: rest) = normCore false acc' rest from by
              simp only [normCore]
              rw [if_neg (not_or.mpr ⟨(not_or.mp h1).1, (not_or.mp h1).2⟩), if_pos h2,
                if_neg h3]] at hx
            exact ih acc' (fun t ht => hacc t (by simp [ht])) (fun t ht => hl t (by simp [ht])) x hx
      · rw [show normCore false acc (s :: rest) = normCore false (s :: acc) rest from by
          simp only [normCore]; rw [if_neg h1, if_neg h2]] at hx
        have hplain : plainSegCh s = true :=
          plainSegCh_iff.mpr ⟨(not_or.mp h1).1, (not_or.mp h1).2, h2, hl s (by simp)⟩
        refine ih (s :: acc) ?_ (fun t ht => hl t (by simp [ht])) x hx
        intro t ht
        cases ht with
        | head => exact hplain
        | tail _ htl => exact hacc t htl

theorem pnormalizeCh_abs (x : List Char)
    (htrail : ('/' :: x).getLast? ≠ some '/')
    (hcore : joinSlash (normCore false [] (splitSlash ('/' :: x))) ≠ []) :
    pnormalizeCh ('/' :: x) = '/' :: joinSlash (normCore false [] (splitSlash ('/' :: x))) := by
  simp [pnormalizeCh, htrail, hcore]

theorem canonPath_getLast_ne (segs : List (List Char)) (n : List Char)
    (hne : n ≠ []) (hns : noSlash n = true) :
    ('/' :: (joinSlash segs ++ '/' :: n)).getLast? ≠ some '/' := by
  have hsplit : '/' :: (joinSlash segs ++ '/' :: n) = ('/' :: joinSlash segs ++ ['/']) ++ n := by
    simp
  rw [hsplit, List.getLast?_append_of_ne_nil _ hne,
    List.getLast?_eq_getLast_of_ne_nil hne]
  intro hcontra
  have hmem : n.getLast hne ∈ n := List.getLast_mem hne
  have : n.getLast hne = '/' := by simpa using hcontra
  exact (noSlash_iff.mp hns (n.getLast hne) hmem) this

theorem pjoinCh_canon (segs : List (List Char)) (n : List Char)
    (hsegs : ∀ s ∈ segs, plainSegCh s = true) (hn : plainSegCh n = true) :
    pjoinCh (canonPathCh segs) n = canonPathCh (segs ++ [n]) := by
  obtain ⟨hne, hnd, hndd, hns⟩ := plainSegCh_iff.mp hn
  obtain ⟨n0, n', rfl⟩ : ∃ n0 n', n = n0 :: n' := by
    cases n with
    | nil => exact absurd rfl hne
    | cons a b => exact ⟨a, b, rfl⟩
  show pnormalizeCh (('/' :: joinSlash segs) ++ '/' :: (n0 :: n')) = _
  rw [List.cons_append]
  have hnorm : normCore false [] (splitSlash ('/' :: (joinSlash segs ++ '/' :: (n0 :: n')))) =
      segs ++ [n0 :: n'] := by
    rw [show splitSlash ('/' :: (joinSlash segs ++ '/' :: (n0 :: n'))) =
        [] :: splitSlash (joinSlash segs ++ '/' :: (n0 :: n')) from by simp [splitSlash]]
    cases segs with
    | nil =>
      rw [show joinSlash ([] : List (List Char)) = [] from rfl]
      rw [show ([] : List Char) ++ '/' :: (n0 :: n') = '/' :: (n0 :: n') from rfl]
      rw [show splitSlash ('/' :: (n0 :: n')) = [] :: splitSlash (n0 :: n') from by
        simp [splitSlash]]
      rw [splitSlash_of_noSlash (n0 :: n') hns]
      rw [show normCore false [] ([] :: [] :: [n0 :: n']) = normCore false [] [n0 :: n'] from by
        simp [normCore]]
      rw [normCore_plain_id [n0 :: n'] [] (by intro s hs; simp at hs; subst hs; exact hn)]
      rfl
    | cons s rest =>
      rw [splitSlash_joinSlash_append (s :: rest) (n0 :: n') (by simp)
        (fun x hx => (plainSegCh_iff.mp (hsegs x hx)).2.2.2) hns]
      rw [show normCore false [] ([] :: ((s :: rest) ++ [n0 :: n'])) =
          normCore false [] ((s :: rest) ++ [n0 :: n']) from by simp [normCore]]
      rw [normCore_plain_id ((s :: rest) ++ [n0 :: n']) []]
      · rfl
      · intro x hx
        rw [List.mem_append] at hx
        cases hx with
        | inl h => exact hsegs x h
        | inr h => simp at h; subst h; exact hn
  have hcorene : joinSlash (normCore false []
      (splitSlash ('/' :: (joinSlash segs ++ '/' :: (n0 :: n'))))) ≠ [] := by
    rw [hnorm]
    cases segs with
    | nil => simp [joinSlash]
    | cons s rest =>
      rw [show (s :: rest) ++ [n0 :: n'] = s :: (rest ++ [n0 :: n']) from rfl]
      rw [joinSlash_cons_eq]
      have hsne : s ≠ [] := (plainSegCh_iff.mp (hsegs s (by simp))).1
      simp [hsne]
  rw [pnormalizeCh_abs _ (canonPath_getLast_ne segs (n0 :: n') hne hns) hcorene, hnorm]
  rfl

theorem canonPath_prefix_append (segs ext : List (List Char)) :
    canonPathCh segs <+: canonPathCh (segs ++ ext) := by
  unfold canonPathCh
  cases segs with
  | nil => exact ⟨joinSlash ext, by simp [joinSlash]⟩
  | cons s rest =>
    rw [show ((s :: rest) ++ ext) = s :: (rest ++ ext) from rfl,
      joinSlash_cons_eq, joinSlash_cons_eq]
    exact ⟨ext.flatMap (fun s => '/' :: s), by simp⟩

theorem presolveSegs_plain (cwd p : List Char) :
    ∀ s ∈ presolveSegsCh cwd p, plainSegCh s = true := by
  intro s hs
  unfold presolveSegsCh at hs
  exact normCore_plain _ [] (by simp) (splitSlash_noSlash _) s hs

theorem walk_event_path (cwd : String) (absMode : Bool) (known : List String)
    (aliases : List (String × String)) :
    ∀ (fuel : Nat) (segs : List (List Char)) (entries : List FsEntry) (p : String),
      (∀ s ∈ segs, plainSegCh s = true) →
      plainTreeF fuel entries = true →
      (FileEvent.read p ∈
          replaceAliasesF cwd absMode known aliases fuel ⟨canonPathCh segs⟩ entries ∨
        ∃ c, FileEvent.write p c ∈
          replaceAliasesF cwd absMode known aliases fuel ⟨canonPathCh segs⟩ entries) →
      ∃ segs2, segs <+: segs2 ∧ p = ⟨canonPathCh segs2⟩ := by
  intro fuel
  induction fuel with
  | zero =>
    intro segs entries p _ _ hev
    cases hev with
    | inl h => simp [replaceAliasesF] at h
    | inr h => obtain ⟨c, hc⟩ := h; simp [replaceAliasesF] at hc
  | succ f ih =>
    intro segs entries p hsegs htree hev
    have hmem : ∃ e ∈ entries,
        (FileEvent.read p ∈ (match e with
          | FsEntry.file n c =>
            if acceptedExt (pjoin ⟨canonPathCh segs⟩ n) = true then
              FileEvent.read (pjoin ⟨canonPathCh segs⟩ n) ::
                (if transformFile cwd absMode known aliases (pjoin ⟨canonPathCh segs⟩ n) c = c
                 then []
                 else [FileEvent.write (pjoin ⟨canonPathCh segs⟩ n)
                   (transformFile cwd absMode known aliases (pjoin ⟨canonPathCh segs⟩ n) c)])
            else []
          | FsEntry.dir n es =>
            replaceAliasesF cwd absMode known aliases f (pjoin ⟨canonPathCh segs⟩ n) es) ∨
         ∃ c, FileEvent.write p c ∈ (match e with
          | FsEntry.file n c =>
            if acceptedExt (pjoin ⟨canonPathCh segs⟩ n) = true then
              FileEvent.read (pjoin ⟨canonPathCh segs⟩ n) ::
                (if transformFile cwd absMode known aliases (pjoin ⟨canonPathCh segs⟩ n) c = c
                 then []
                 else [FileEvent.write (pjoin ⟨canonPathCh segs⟩ n)
                   (transformFile cwd absMode known aliases (pjoin ⟨canonPathCh segs⟩ n) c)])
            else []
          | FsEntry.dir n es =>
            replaceAliasesF cwd absMode known aliases f (pjoin ⟨canonPathCh segs⟩ n) es)) := by
      cases hev with
      | inl h =>
        simp only [replaceAliasesF, List.mem_cons] at h
        cases h with
        | inl habs => exact FileEvent.noConfusion habs
        | inr h2 =>
          rw [List.mem_flatMap] at h2
          obtain ⟨e, he, hme⟩ := h2
          exact ⟨e, he, Or.inl hme⟩
      | inr h =>
        obtain ⟨c, hc⟩ := h
        simp only [replaceAliasesF, List.mem_cons] at hc
        cases hc with
        | inl habs => exact FileEvent.noConfusion habs
        | inr h2 =>
          rw [List.mem_flatMap] at h2
          obtain ⟨e, he, hme⟩ := h2
          exact ⟨e, he, Or.inr ⟨c, hme⟩⟩
    obtain ⟨e, he, hme⟩ := hmem
    have hplaine := htree
    rw [show plainTreeF (f + 1) entries =
        entries.all (fun e =>
          match e with
          | FsEntry.file n _ => plainName n
          | FsEntry.dir n es => plainName n && plainTreeF f es) from rfl] at hplaine
    rw [List.all_eq_true] at hplaine
    cases e with
    | file n c =>
      replace hme :
          FileEvent.read p ∈ (if acceptedExt (pjoin ⟨canonPathCh segs⟩ n) = true then
              FileEvent.read (pjoin ⟨canonPathCh segs⟩ n) ::
                (if transformFile cwd absMode known aliases (pjoin ⟨canonPathCh segs⟩ n) c = c
                 then []
                 else [FileEvent.write (pjoin ⟨canonPathCh segs⟩ n)
                   (transformFile cwd absMode known aliases (pjoin ⟨canonPathCh segs⟩ n) c)])
            else []) ∨
          ∃ c2, FileEvent.write p c2 ∈ (if acceptedExt (pjoin ⟨canonPathCh segs⟩ n) = true then
              FileEvent.read (pjoin ⟨canonPathCh segs⟩ n) ::
                (if transformFile cwd absMode known aliases (pjoin ⟨canonPathCh segs⟩ n) c = c
                 then []
                 else [FileEvent.write (pjoin ⟨canonPathCh segs⟩ n)
                   (transformFile cwd absMode known aliases (pjoin ⟨canonPathCh segs⟩ n) c)])
            else []) := hme
      have hn : plainSegCh n.data = true := hplaine (FsEntry.file n c) he
      have hjoin : pjoin ⟨canonPathCh segs⟩ n = ⟨canonPathCh (segs ++ [n.data])⟩ := by
        show (⟨pjoinCh (canonPathCh segs) n.data⟩ : String) = _
        rw [pjoinCh_canon segs n.data hsegs hn]
      refine ⟨segs ++ [n.data], ⟨[n.data], rfl⟩, ?_⟩
      rw [hjoin] at hme
      by_cases hext : acceptedExt (⟨canonPathCh (segs ++ [n.data])⟩ : String) = true
      · rw [if_pos hext] at hme
        cases hme with
        | inl hr =>
          rw [List.mem_cons] at hr
          cases hr with
          | inl hr1 => exact (FileEvent.read.injEq _ _).mp hr1
          | inr hr2 =>
            by_cases hch : transformFile cwd absMode known aliases
                ⟨canonPathCh (segs ++ [n.data])⟩ c = c
            · rw [if_pos hch] at hr2; simp at hr2
            · rw [if_neg hch] at hr2; simp at hr2
        | inr hw =>
          obtain ⟨c2, hc2⟩ := hw
          rw [List.mem_cons] at hc2
          cases hc2 with
          | inl habs => exact FileEvent.noConfusion habs
          | inr hw2 =>
            by_cases hch : transformFile cwd absMode known aliases
                ⟨canonPathCh (segs ++ [n.data])⟩ c = c
            · rw [if_pos hch] at hw2; simp at hw2
            · rw [if_neg hch] at hw2
              simp only [List.mem_singleton] at hw2
              exact ((FileEvent.write.injEq _ _ _ _).mp hw2).1
      · rw [if_neg hext] at hme
        cases hme with
        | inl hr => simp at hr
        | inr hw => obtain ⟨c2, hc2⟩ := hw; simp at hc2
    | dir n es =>
      replace hme :
          FileEvent.read p ∈
            replaceAliasesF cwd absMode known aliases f (pjoin ⟨canonPathCh segs⟩ n) es ∨
          ∃ c2, FileEvent.write p c2 ∈
            replaceAliasesF cwd absMode known aliases f (pjoin ⟨canonPathCh segs⟩ n) es := hme
      have hn : plainSegCh n.data = true := by
        have := hplaine (FsEntry.dir n es) he
        simp only [Bool.and_eq_true] at this
        exact this.1
      have htreees : plainTreeF f es = true := by
        have := hplaine (FsEntry.dir n es) he
        simp only [Bool.and_eq_true] at this
        exact this.2
      have hjoin : pjoin ⟨canonPathCh segs⟩ n = ⟨canonPathCh (segs ++ [n.data])⟩ := by
        show (⟨pjoinCh (canonPathCh segs) n.data⟩ : String) = _
        rw [pjoinCh_canon segs n.data hsegs hn]
      rw [hjoin] at hme
      have hsegs2 : ∀ s ∈ segs ++ [n.data], plainSegCh s = true := by
        intro s hs
        rw [List.mem_append] at hs
        cases hs with
        | inl h => exact hsegs s h
        | inr h => simp at h; subst h; exact hn
      obtain ⟨segs2, hpre2, hp2⟩ := ih (segs ++ [n.data]) es p hsegs2 htreees hme
      exact ⟨segs2, (List.prefix_append segs [n.data]).trans hpre2, hp2⟩

/-- C10: for every file the walker reads or writes, the effective root of
the absolute-path stage equals the resolved source directory: traversal
starts at `resolve(cwd, "src")` and every visited path extends that
string prefix (entry names being well-formed directory entries), so the
startsWith test always succeeds and the branch selecting the project
root is unreachable. -/
theorem C10_effective_root_is_src (cwd : String) (absMode : Bool) (known : List String)
    (aliases : List (String × String)) (fuel : Nat) (tree : List FsEntry) (p : String)
    (hplain : plainTreeF fuel tree = true)
    (hev : FileEvent.read p ∈
        replaceAliasesF cwd absMode known aliases fuel (presolve cwd "src") tree ∨
      ∃ c, FileEvent.write p c ∈
        replaceAliasesF cwd absMode known aliases fuel (presolve cwd "src") tree) :
    effectiveRoot cwd (presolve cwd "src") p = presolve cwd "src" := by
  have hsegs : ∀ s ∈ presolveSegsCh cwd.data "src".data, plainSegCh s = true :=
    presolveSegs_plain cwd.data "src".data
  have hpres : presolve cwd "src" = ⟨canonPathCh (presolveSegsCh cwd.data "src".data)⟩ := rfl
  rw [hpres] at hev
  obtain ⟨segs2, hpre, hp⟩ := walk_event_path cwd absMode known aliases fuel
    (presolveSegsCh cwd.data "src".data) tree p hsegs hplain hev
  obtain ⟨ext, hext⟩ := hpre
  have hprefix : (presolve cwd "src").data.isPrefixOf p.data = true := by
    subst hp
    rw [hpres]
    show (canonPathCh (presolveSegsCh cwd.data "src".data)).isPrefixOf (canonPathCh segs2) = true
    apply List.isPrefixOf_iff_prefix.mpr
    rw [← hext]
    exact canonPath_prefix_append _ ext
  unfold effectiveRoot
  rw [if_pos hprefix]

/-- Witness for C10: a concrete read event of a one-file tree has the
source directory as its effective root. -/
theorem C10_effective_root_is_src_witness :
    effectiveRoot "/proj" (presolve "/proj" "src") "/proj/src/A.vue" = presolve "/proj" "src" :=
  C10_effective_root_is_src "/proj" false [] [] 1 [FsEntry.file "A.vue" "x"] "/proj/src/A.vue"
    (by decide) (Or.inl (by decide))
